import Mathlib

/-!
Verification of the tokenizer in `crates/bot-common/src/words.rs` of
DigitalAda/OxidizeBot.

The file embeds the two splitters of that module:

* `Words` — the decoding tokenizer.  The Rust struct keeps the backing
  text, a byte-offset cursor `off`, a one-character lookahead `b0`
  (byte offset plus decoded character) and an accumulation `buffer`.
  We embed the backing text as a `List Char` (Rust `str` is a sequence
  of Unicode scalar values) and keep the byte offsets, computed from
  `Char.utf8Size`, exactly as the Rust code computes them with
  `char_indices`.  `Words.new`, `Words.take`, `Words.peek`,
  `Words.rest` and `Words.escape` are direct translations.

* The scanning loop of `<Words as Iterator>::next` is embedded as
  `nextLoop` over the sequence of not-yet-consumed characters
  (`pending`), i.e. the lookahead character followed by the characters
  after the cursor.  The lemmas `absPending_new` and `take_absPending`
  prove that `Words.take` on the byte-offset machine is exactly
  head/tail on that sequence, which justifies the character-level
  loop.  `nextLoop` is structured on a fuel argument so that it stays
  kernel-computable; `wordsNext` always calls it with fuel
  `pending.length + 1`, which is never exhausted (`nextLoop_fuel`).

* `TrimmedWords` — the zero-copy splitter, with the separator
  predicate `is_trim_separator` (Unicode whitespace or ASCII
  punctuation, following Rust's `char::is_whitespace` and
  `char::is_ascii_punctuation`).
-/

/-- Sum of the UTF-8 widths of a character list: the byte length of the
corresponding Rust `str`. -/
def utf8Len : List Char → Nat
  | [] => 0
  | c :: rest => c.utf8Size + utf8Len rest

/-- Slice a character list at a byte offset: the embedding of
`&s[n..]`.  At a character boundary this drops exactly the characters
whose encodings lie before the offset. -/
def dropBytes : List Char → Nat → List Char
  | [], _ => []
  | c :: rest, n => if n = 0 then c :: rest else dropBytes rest (n - c.utf8Size)

/-- Decidable test that a byte offset is a character boundary of the
text (the offset of the encoding of some prefix of the characters). -/
def isBoundary : List Char → Nat → Bool
  | [], n => n = 0
  | c :: rest, n =>
    if n = 0 then true
    else if n < c.utf8Size then false
    else isBoundary rest (n - c.utf8Size)

/-- The whitespace characters recognised by `Words::next`
(space, tab, CR, LF — the arms of the first `match`). -/
def isWs (c : Char) : Bool :=
  c = ' ' || c = '\t' || c = '\r' || c = '\n'

/-- The escape table of `Words::escape`: `t`→TAB, `r`→CR, `n`→LF,
anything else to itself. -/
def escChar (c : Char) : Char :=
  if c = 't' then '\t' else if c = 'r' then '\r' else if c = 'n' then '\n' else c

/-- The tagged storage behind the decoding tokenizer (`WordsStorage`):
a reference-counted shared string or a process-lifetime static
string.  Both dereference to the same kind of read-only text. -/
inductive WordsStorage where
  | shared : List Char → WordsStorage
  | static : List Char → WordsStorage
deriving DecidableEq

/-- The `Deref` impl of `WordsStorage`: both variants expose their
text. -/
def WordsStorage.deref : WordsStorage → List Char
  | .shared s => s
  | .static s => s

/-- The state of the decoding tokenizer (`struct Words`): backing
text, byte-offset cursor, one-character lookahead (byte offset and
character), accumulation buffer. -/
structure Words where
  string : List Char
  off : Nat
  b0 : Option (Nat × Char)
  buffer : List Char
deriving DecidableEq

/-- `Words::new`: the lookahead is the first character (at offset 0)
and the cursor is the offset of the second character, or the byte
length of the text when there is at most one character. -/
def Words.new (s : List Char) : Words :=
  match s with
  | [] => { string := s, off := 0, b0 := none, buffer := [] }
  | c :: _ => { string := s, off := c.utf8Size, b0 := some (0, c), buffer := [] }

/-- `Words::take`: return the lookahead, refill it with the first
character of `&string[off..]` (at byte offset `off`), and advance
`off` past that character (by the offset of the second character of
the slice, or the slice's byte length when it has at most one
character). -/
def Words.take (w : Words) : Option (Nat × Char) × Words :=
  match dropBytes w.string w.off with
  | [] => (w.b0, { w with b0 := none })
  | c :: _ => (w.b0, { w with b0 := some (w.off, c), off := w.off + c.utf8Size })

/-- `Words::peek`: the lookahead, unconsumed. -/
def Words.peek (w : Words) : Option (Nat × Char) :=
  w.b0

/-- `Words::rest`: the suffix of the backing text from the byte offset
of the lookahead character, or empty when exhausted. -/
def Words.rest (w : Words) : List Char :=
  match w.b0 with
  | some (n, _) => dropBytes w.string n
  | none => []

/-- `Words::escape`: take one character; on end of input return with
the buffer untouched, otherwise push its decoding through the escape
table. -/
def Words.escape (w : Words) : Words :=
  match w.take with
  | (none, w') => w'
  | (some (_, c), w') => { w' with buffer := w'.buffer ++ [escChar c] }

/-- The sequence of characters not yet consumed by the byte-offset
machine: the lookahead character followed by the characters behind the
cursor.  `Words.take` is exactly head/tail on this sequence
(`take_absPending`). -/
def absPending (w : Words) : List Char :=
  match w.b0 with
  | some (_, c) => c :: dropBytes w.string w.off
  | none => []

/-- The inner loop of `<Words as Iterator>::next` that scans a quoted
run: a backslash escapes one character (dropped when the input ends),
an unescaped quote ends the run, any other character is pushed. -/
def quoteLoop : List Char → List Char → List Char × List Char
  | buf, [] => (buf, [])
  | buf, c :: rest =>
    if c = '\\' then
      match rest with
      | [] => (buf, [])
      | d :: rest2 => quoteLoop (buf ++ [escChar d]) rest2
    else if c = '"' then (buf, rest)
    else quoteLoop (buf ++ [c]) rest

/-- The body of `<Words as Iterator>::next` at the character level:
state is the accumulation buffer and the pending characters.  On
whitespace the whole run is consumed and the buffer emitted if
non-empty; a backslash escapes one character; a quote enters
`quoteLoop`; anything else is pushed.  At end of input the buffer is
emitted if non-empty.  The fuel argument only bounds the recursion;
every call site supplies `pending.length + 1`, which is never
exhausted (`nextLoop_fuel`). -/
def nextLoop : Nat → List Char → List Char → Option (List Char) × List Char × List Char
  | _, buf, [] => if buf = [] then (none, [], []) else (some buf, [], [])
  | 0, buf, pending => (none, buf, pending)
  | fuel + 1, buf, c :: rest =>
    if isWs c then
      if buf = [] then nextLoop fuel [] (rest.dropWhile isWs)
      else (some buf, [], rest.dropWhile isWs)
    else if c = '\\' then
      match rest with
      | [] => nextLoop fuel buf []
      | d :: rest2 => nextLoop fuel (buf ++ [escChar d]) rest2
    else if c = '"' then nextLoop fuel (quoteLoop buf rest).1 (quoteLoop buf rest).2
    else nextLoop fuel (buf ++ [c]) rest

/-- Character-level state of the decoding tokenizer: the original
backing text (used only by the emptiness check at the top of `next`),
the pending characters (`absPending` of the byte machine) and the
accumulation buffer. -/
structure WState where
  orig : List Char
  pending : List Char
  buffer : List Char
deriving DecidableEq

/-- The embedding of `Words::rest` on the character-level state: the
pending characters, lookahead included. -/
def WState.rest (w : WState) : List Char :=
  w.pending

/-- `<Words as Iterator>::next`: `None` at once when the backing text
is empty, otherwise one round of the scanning loop. -/
def wordsNext (w : WState) : Option (List Char) × WState :=
  if w.orig = [] then (none, w)
  else
    match nextLoop (w.pending.length + 1) w.buffer w.pending with
    | (t, buf, pend) => (t, { orig := w.orig, pending := pend, buffer := buf })

/-- Drain the iterator: collect tokens until `next` returns `None`.
The fuel `s.length + 1` used by `wordsTokens` is always enough because
every emitted token consumes at least one pending character. -/
def drain : Nat → WState → List (List Char)
  | 0, _ => []
  | fuel + 1, w =>
    match wordsNext w with
    | (none, _) => []
    | (some t, w') => t :: drain fuel w'

/-- The character-level state corresponding to `Words::new`:
everything pending, empty buffer. -/
def wordsInit (s : List Char) : WState :=
  { orig := s, pending := s, buffer := [] }

/-- The token sequence of the decoding tokenizer over an input. -/
def wordsTokens (s : List Char) : List (List Char) :=
  drain (s.length + 1) (wordsInit s)

/-- The token sequence of a tokenizer built over a storage handle
(`words(string)` for either storage variant). -/
def wordsTokensOf (st : WordsStorage) : List (List Char) :=
  wordsTokens st.deref

/-- Rust `char::is_whitespace`: the Unicode `White_Space` property. -/
def rustIsWhitespace (c : Char) : Bool :=
  let n := c.toNat
  (0x09 ≤ n && n ≤ 0x0D) || n = 0x20 || n = 0x85 || n = 0xA0 || n = 0x1680 ||
  (0x2000 ≤ n && n ≤ 0x200A) || n = 0x2028 || n = 0x2029 || n = 0x202F ||
  n = 0x205F || n = 0x3000

/-- Rust `char::is_ascii_punctuation`: `!..'/'`, `:..'@'`, `[..'`'`,
`{..'~'` in ASCII. -/
def isAsciiPunctuation (c : Char) : Bool :=
  let n := c.toNat
  (0x21 ≤ n && n ≤ 0x2F) || (0x3A ≤ n && n ≤ 0x40) ||
  (0x5B ≤ n && n ≤ 0x60) || (0x7B ≤ n && n ≤ 0x7E)

/-- `is_trim_separator`: whitespace or ASCII punctuation. -/
def is_trim_separator (c : Char) : Bool :=
  rustIsWhitespace c || isAsciiPunctuation c

/-- The state of the zero-copy splitter (`struct TrimmedWords`): the
remaining slice of the input. -/
structure TrimmedWords where
  string : List Char
deriving DecidableEq

/-- `TrimmedWords::new`: trim the leading separator run. -/
def TrimmedWords.new (s : List Char) : TrimmedWords :=
  { string := s.dropWhile is_trim_separator }

/-- `<TrimmedWords as Iterator>::next`: `None` on the empty slice;
when no separator occurs, yield the whole slice and leave the empty
slice behind; otherwise split at the first separator, yield the
prefix, and trim the remainder's leading separator run. -/
def TrimmedWords.next (t : TrimmedWords) : Option (List Char) × TrimmedWords :=
  if t.string = [] then (none, t)
  else if t.string.all (fun c => !is_trim_separator c) then
    (some t.string, { string := [] })
  else
    (some (t.string.takeWhile (fun c => !is_trim_separator c)),
      { string := (t.string.dropWhile (fun c => !is_trim_separator c)).dropWhile is_trim_separator })

/-- Drain the zero-copy splitter. -/
def trimmedDrain : Nat → TrimmedWords → List (List Char)
  | 0, _ => []
  | fuel + 1, t =>
    match t.next with
    | (none, _) => []
    | (some tok, t') => tok :: trimmedDrain fuel t'

/-- The token sequence of the zero-copy splitter over an input. -/
def trimmedTokens (s : List Char) : List (List Char) :=
  trimmedDrain (s.length + 1) (TrimmedWords.new s)


theorem utf8Len_append (a b : List Char) : utf8Len (a ++ b) = utf8Len a + utf8Len b := by
  induction a with
  | nil => simp [utf8Len]
  | cons c a ih => simp [utf8Len, ih]; omega

theorem dropBytes_append (pre suf : List Char) :
    dropBytes (pre ++ suf) (utf8Len pre) = suf := by
  induction pre with
  | nil =>
    cases suf with
    | nil => rfl
    | cons c s => simp [utf8Len, dropBytes]
  | cons c pre ih =>
    have hpos : 0 < c.utf8Size := Char.utf8Size_pos c
    simp only [List.cons_append, dropBytes, utf8Len]
    rw [if_neg (by omega)]
    have h2 : c.utf8Size + utf8Len pre - c.utf8Size = utf8Len pre := by omega
    rw [h2]
    exact ih

theorem isBoundary_append (pre suf : List Char) :
    isBoundary (pre ++ suf) (utf8Len pre) = true := by
  induction pre with
  | nil =>
    cases suf with
    | nil => simp [isBoundary, utf8Len]
    | cons c s => simp [isBoundary, utf8Len]
  | cons c pre ih =>
    have hpos : 0 < c.utf8Size := Char.utf8Size_pos c
    simp only [List.cons_append, isBoundary, utf8Len]
    rw [if_neg (by omega), if_neg (by omega)]
    have h2 : c.utf8Size + utf8Len pre - c.utf8Size = utf8Len pre := by omega
    rw [h2]
    exact ih

theorem isBoundary_exists {s : List Char} {n : Nat} (h : isBoundary s n = true) :
    ∃ pre suf, s = pre ++ suf ∧ utf8Len pre = n := by
  induction s generalizing n with
  | nil =>
    simp [isBoundary] at h
    exact ⟨[], [], rfl, by simp [utf8Len, h]⟩
  | cons c rest ih =>
    by_cases h0 : n = 0
    · exact ⟨[], c :: rest, rfl, by simp [utf8Len, h0]⟩
    · simp only [isBoundary, if_neg h0] at h
      by_cases hlt : n < c.utf8Size
      · rw [if_pos hlt] at h; exact absurd h (by simp)
      · rw [if_neg hlt] at h
        obtain ⟨pre, suf, hs, hn⟩ := ih h
        refine ⟨c :: pre, suf, by simp [hs], ?_⟩
        simp [utf8Len, hn]; omega

theorem Words.take_nil {w : Words} (h : dropBytes w.string w.off = []) :
    w.take = (w.b0, { w with b0 := none }) := by
  simp [Words.take, h]

theorem Words.take_cons {w : Words} {c : Char} {t : List Char}
    (h : dropBytes w.string w.off = c :: t) :
    w.take = (w.b0, { w with b0 := some (w.off, c), off := w.off + c.utf8Size }) := by
  simp [Words.take, h]

/-- The cursor invariant of the byte-offset machine: when the
lookahead holds `(n, c)`, `n` is a character boundary, the suffix at
`n` starts with `c` followed by the suffix at the cursor, and the
cursor sits exactly one encoded character past `n`; when the lookahead
is exhausted the cursor sits at the end of the text. -/
def WordsInv (w : Words) : Prop :=
  match w.b0 with
  | none => w.off = utf8Len w.string
  | some (n, c) =>
    isBoundary w.string n = true ∧
    dropBytes w.string n = c :: dropBytes w.string w.off ∧
    w.off = n + c.utf8Size

theorem WordsInv_new (s : List Char) : WordsInv (Words.new s) := by
  cases s with
  | nil => simp [Words.new, WordsInv, utf8Len]
  | cons c rest =>
    have h1 : dropBytes (c :: rest) 0 = c :: rest := by simp [dropBytes]
    have h2 : dropBytes ([c] ++ rest) (utf8Len [c]) = rest := dropBytes_append [c] rest
    simp only [utf8Len, List.singleton_append, Nat.add_zero] at h2
    refine ⟨isBoundary_append [] (c :: rest), ?_, by simp [Words.new]⟩
    simp only [Words.new, h1, h2]

theorem WordsInv_take {w : Words} (h : WordsInv w) : WordsInv (w.take).2 := by
  match ht : dropBytes w.string w.off with
  | [] =>
    rw [Words.take_nil ht]
    match hb : w.b0 with
    | none =>
      have hoff : w.off = utf8Len w.string := by simpa [WordsInv, hb] using h
      simpa [WordsInv] using hoff
    | some (n, c) =>
      have h' : isBoundary w.string n = true ∧
          dropBytes w.string n = c :: dropBytes w.string w.off ∧
          w.off = n + c.utf8Size := by simpa [WordsInv, hb] using h
      obtain ⟨hbd, hdn, hoff⟩ := h'
      rw [ht] at hdn
      obtain ⟨pre, suf, hs, hn⟩ := isBoundary_exists hbd
      have hsn : dropBytes w.string n = suf := by rw [hs, ← hn]; exact dropBytes_append pre suf
      have hsuf : suf = [c] := by rw [← hsn, hdn]
      have hstr : w.string = pre ++ [c] := by rw [hs, hsuf]
      have : w.off = utf8Len w.string := by
        rw [hstr, utf8Len_append, hn, hoff]; simp [utf8Len]
      simpa [WordsInv] using this
  | c2 :: t2 =>
    rw [Words.take_cons ht]
    match hb : w.b0 with
    | none =>
      have hoff : w.off = utf8Len w.string := by simpa [WordsInv, hb] using h
      have : dropBytes w.string w.off = [] := by
        rw [hoff]
        have := dropBytes_append w.string []
        simpa using this
      rw [this] at ht
      exact absurd ht (by simp)
    | some (n, c) =>
      have h' : isBoundary w.string n = true ∧
          dropBytes w.string n = c :: dropBytes w.string w.off ∧
          w.off = n + c.utf8Size := by simpa [WordsInv, hb] using h
      obtain ⟨hbd, hdn, hoff⟩ := h'
      rw [ht] at hdn
      obtain ⟨pre, suf, hs, hn⟩ := isBoundary_exists hbd
      have hsn : dropBytes w.string n = suf := by rw [hs, ← hn]; exact dropBytes_append pre suf
      have hsuf : suf = c :: c2 :: t2 := by rw [← hsn, hdn]
      have hstr : w.string = (pre ++ [c] ++ [c2]) ++ t2 := by rw [hs, hsuf]; simp
      have hlen2 : utf8Len (pre ++ [c]) = w.off := by
        rw [utf8Len_append, hn, hoff]; simp [utf8Len]
      have hlen3 : utf8Len (pre ++ [c] ++ [c2]) = w.off + c2.utf8Size := by
        rw [utf8Len_append, hlen2]; simp [utf8Len]
      have hbd2 : isBoundary w.string w.off = true := by
        have := isBoundary_append (pre ++ [c]) ([c2] ++ t2)
        rw [hlen2] at this
        have hstr2 : w.string = (pre ++ [c]) ++ ([c2] ++ t2) := by rw [hstr]; simp
        rw [hstr2]
        exact this
      have hdrop3 : dropBytes w.string (w.off + c2.utf8Size) = t2 := by
        have := dropBytes_append (pre ++ [c] ++ [c2]) t2
        rw [hlen3] at this
        rw [hstr]
        exact this
      show isBoundary w.string w.off = true ∧
          dropBytes w.string w.off = c2 :: dropBytes w.string (w.off + c2.utf8Size) ∧
          w.off + c2.utf8Size = w.off + c2.utf8Size
      exact ⟨hbd2, by rw [ht, hdrop3], rfl⟩

theorem WordsInv_buffer {w : Words} (b : List Char) (h : WordsInv w) :
    WordsInv { w with buffer := b } := h

/-- States of the byte-offset machine reachable by the code: built by
`Words::new` and mutated only through `Words::take` and pushes onto
the accumulation buffer (as `next` and `escape` do). -/
inductive WordsReach : Words → Prop where
  | new : ∀ s, WordsReach (Words.new s)
  | take : ∀ w, WordsReach w → WordsReach (w.take).2
  | buffer : ∀ w b, WordsReach w → WordsReach { w with buffer := b }

theorem WordsReach_inv {w : Words} (h : WordsReach w) : WordsInv w := by
  induction h with
  | new s => exact WordsInv_new s
  | take w _ ih => exact WordsInv_take ih
  | buffer w b _ ih => exact WordsInv_buffer b ih

theorem WordsInv_off_boundary {w : Words} (h : WordsInv w) :
    isBoundary w.string w.off = true := by
  match hb : w.b0 with
  | none =>
    have hoff : w.off = utf8Len w.string := by simpa [WordsInv, hb] using h
    have := isBoundary_append w.string []
    rw [List.append_nil] at this
    rw [hoff]
    exact this
  | some (n, c) =>
    have h' : isBoundary w.string n = true ∧
        dropBytes w.string n = c :: dropBytes w.string w.off ∧
        w.off = n + c.utf8Size := by simpa [WordsInv, hb] using h
    obtain ⟨hbd, hdn, hoff⟩ := h'
    obtain ⟨pre, suf, hs, hn⟩ := isBoundary_exists hbd
    have hsn : dropBytes w.string n = suf := by rw [hs, ← hn]; exact dropBytes_append pre suf
    have hsuf : suf = c :: dropBytes w.string w.off := by rw [← hsn, hdn]
    have hstr : w.string = (pre ++ [c]) ++ dropBytes w.string w.off := by
      conv_lhs => rw [hs, hsuf]
      simp
    have hlen : utf8Len (pre ++ [c]) = w.off := by
      rw [utf8Len_append, hn, hoff]; simp [utf8Len]
    have := isBoundary_append (pre ++ [c]) (dropBytes w.string w.off)
    rw [hlen] at this
    conv_lhs => rw [hstr]
    exact this

theorem WordsInv_b0_boundary {w : Words} (h : WordsInv w) {n : Nat} {c : Char}
    (hb : w.b0 = some (n, c)) : isBoundary w.string n = true := by
  have h' : isBoundary w.string n = true ∧
      dropBytes w.string n = c :: dropBytes w.string w.off ∧
      w.off = n + c.utf8Size := by simpa [WordsInv, hb] using h
  exact h'.1

theorem WordsInv_rest {w : Words} (h : WordsInv w) {n : Nat} {c : Char}
    (hb : w.b0 = some (n, c)) :
    w.rest = c :: dropBytes w.string w.off := by
  have h' : isBoundary w.string n = true ∧
      dropBytes w.string n = c :: dropBytes w.string w.off ∧
      w.off = n + c.utf8Size := by simpa [WordsInv, hb] using h
  simp [Words.rest, hb, h'.2.1]

theorem WordsInv_rest_suffix {w : Words} (h : WordsInv w) :
    ∃ pre, w.string = pre ++ w.rest := by
  match hb : w.b0 with
  | none => exact ⟨w.string, by simp [Words.rest, hb]⟩
  | some (n, c) =>
    have hbd := WordsInv_b0_boundary h hb
    obtain ⟨pre, suf, hs, hn⟩ := isBoundary_exists hbd
    refine ⟨pre, ?_⟩
    have hd : dropBytes w.string n = suf := by rw [hs, ← hn]; exact dropBytes_append pre suf
    rw [Words.rest, hb]
    simp only [hd]
    exact hs

theorem absPending_new (s : List Char) : absPending (Words.new s) = s := by
  cases s with
  | nil => simp [Words.new, absPending]
  | cons c rest =>
    have h2 : dropBytes ([c] ++ rest) (utf8Len [c]) = rest := dropBytes_append [c] rest
    simp only [utf8Len, List.singleton_append, Nat.add_zero] at h2
    simp [Words.new, absPending, h2]

theorem take_fst (w : Words) : (w.take).1 = w.b0 := by
  unfold Words.take
  match dropBytes w.string w.off with
  | [] => rfl
  | c :: t => rfl

theorem take_absPending {w : Words} (h : WordsInv w) :
    absPending (w.take).2 = (absPending w).tail ∧
    ((w.take).1).map Prod.snd = (absPending w).head? := by
  match ht : dropBytes w.string w.off with
  | [] =>
    rw [Words.take_nil ht]
    match hb : w.b0 with
    | none => simp [absPending, hb]
    | some (n, c) => simp [absPending, hb, ht]
  | c2 :: t2 =>
    rw [Words.take_cons ht]
    match hb : w.b0 with
    | none =>
      have hoff : w.off = utf8Len w.string := by simpa [WordsInv, hb] using h
      have : dropBytes w.string w.off = [] := by
        rw [hoff]
        have := dropBytes_append w.string []
        simpa using this
      rw [this] at ht
      exact absurd ht (by simp)
    | some (n, c) =>
      have h' : isBoundary w.string n = true ∧
          dropBytes w.string n = c :: dropBytes w.string w.off ∧
          w.off = n + c.utf8Size := by simpa [WordsInv, hb] using h
      obtain ⟨hbd, hdn, hoff⟩ := h'
      rw [ht] at hdn
      obtain ⟨pre, suf, hs, hn⟩ := isBoundary_exists hbd
      have hsn : dropBytes w.string n = suf := by rw [hs, ← hn]; exact dropBytes_append pre suf
      have hsuf : suf = c :: c2 :: t2 := by rw [← hsn, hdn]
      have hstr : w.string = (pre ++ [c] ++ [c2]) ++ t2 := by rw [hs, hsuf]; simp
      have hlen3 : utf8Len (pre ++ [c] ++ [c2]) = w.off + c2.utf8Size := by
        rw [utf8Len_append, utf8Len_append, hn]; simp [utf8Len]; omega
      have hdrop3 : dropBytes w.string (w.off + c2.utf8Size) = t2 := by
        have := dropBytes_append (pre ++ [c] ++ [c2]) t2
        rw [hlen3] at this
        rw [hstr]
        exact this
      simp [absPending, hb, ht, hdrop3]

theorem quoteLoop_nil (buf : List Char) : quoteLoop buf [] = (buf, []) := rfl

theorem quoteLoop_cons (buf : List Char) (c : Char) (rest : List Char) :
    quoteLoop buf (c :: rest) =
      if c = '\\' then
        match rest with
        | [] => (buf, [])
        | d :: rest2 => quoteLoop (buf ++ [escChar d]) rest2
      else if c = '"' then (buf, rest)
      else quoteLoop (buf ++ [c]) rest := by
  rw [quoteLoop.eq_def]

theorem quoteLoop_length (buf l : List Char) : (quoteLoop buf l).2.length ≤ l.length := by
  induction buf, l using quoteLoop.induct <;>
    simp_all +decide [quoteLoop_nil, quoteLoop_cons] <;> omega

theorem nextLoop_nil (fuel : Nat) (buf : List Char) :
    nextLoop fuel buf [] = if buf = [] then (none, [], []) else (some buf, [], []) := by
  cases fuel <;> rw [nextLoop.eq_def]

theorem nextLoop_zero (buf : List Char) (c : Char) (rest : List Char) :
    nextLoop 0 buf (c :: rest) = (none, buf, c :: rest) := by
  rw [nextLoop.eq_def]

theorem nextLoop_cons (fuel : Nat) (buf : List Char) (c : Char) (rest : List Char) :
    nextLoop (fuel + 1) buf (c :: rest) =
      if isWs c then
        if buf = [] then nextLoop fuel [] (rest.dropWhile isWs)
        else (some buf, [], rest.dropWhile isWs)
      else if c = '\\' then
        match rest with
        | [] => nextLoop fuel buf []
        | d :: rest2 => nextLoop fuel (buf ++ [escChar d]) rest2
      else if c = '"' then nextLoop fuel (quoteLoop buf rest).1 (quoteLoop buf rest).2
      else nextLoop fuel (buf ++ [c]) rest := by
  rw [nextLoop.eq_def]

theorem head_dropWhile_not {α : Type} (p : α → Bool) (l : List α) {c : α}
    (h : (l.dropWhile p).head? = some c) : p c = false := by
  induction l with
  | nil => simp [List.dropWhile] at h
  | cons a l ih =>
    by_cases hp : p a
    · rw [List.dropWhile_cons_of_pos hp] at h
      exact ih h
    · rw [List.dropWhile_cons_of_neg hp] at h
      simp only [List.head?_cons, Option.some.injEq] at h
      subst h
      simpa using hp

theorem dropWhile_length_le {α : Type} (p : α → Bool) (l : List α) :
    (l.dropWhile p).length ≤ l.length := by
  induction l with
  | nil => simp
  | cons a l ih =>
    by_cases hp : p a
    · rw [List.dropWhile_cons_of_pos hp]
      exact Nat.le_trans ih (by simp)
    · rw [List.dropWhile_cons_of_neg hp]

theorem nextLoop_some_ne_nil {fuel : Nat} {buf pending t b p : List Char}
    (h : nextLoop fuel buf pending = (some t, b, p)) : t ≠ [] := by
  induction fuel generalizing buf pending with
  | zero =>
    cases pending with
    | nil =>
      rw [nextLoop_nil] at h
      by_cases hb : buf = []
      · simp [hb] at h
      · simp [hb] at h
        rw [← h.1]
        exact hb
    | cons c rest =>
      rw [nextLoop_zero] at h
      simp at h
  | succ fuel ih =>
    cases pending with
    | nil =>
      rw [nextLoop_nil] at h
      by_cases hb : buf = []
      · simp [hb] at h
      · simp [hb] at h
        rw [← h.1]
        exact hb
    | cons c rest =>
      rw [nextLoop_cons] at h
      by_cases hws : isWs c
      · rw [if_pos hws] at h
        by_cases hb : buf = []
        · rw [if_pos hb] at h
          exact ih h
        · rw [if_neg hb] at h
          simp at h
          rw [← h.1]
          exact hb
      · rw [if_neg hws] at h
        by_cases hbs : c = '\\'
        · rw [if_pos hbs] at h
          cases rest with
          | nil => exact ih h
          | cons d rest2 => exact ih h
        · rw [if_neg hbs] at h
          by_cases hq : c = '"'
          · rw [if_pos hq] at h
            exact ih h
          · rw [if_neg hq] at h
            exact ih h

theorem nextLoop_some_buf {fuel : Nat} {buf pending t b p : List Char}
    (h : nextLoop fuel buf pending = (some t, b, p)) : b = [] := by
  induction fuel generalizing buf pending with
  | zero =>
    cases pending with
    | nil =>
      rw [nextLoop_nil] at h
      by_cases hb : buf = [] <;> simp [hb] at h
      exact h.2.1
    | cons c rest =>
      rw [nextLoop_zero] at h
      simp at h
  | succ fuel ih =>
    cases pending with
    | nil =>
      rw [nextLoop_nil] at h
      by_cases hb : buf = [] <;> simp [hb] at h
      exact h.2.1
    | cons c rest =>
      rw [nextLoop_cons] at h
      by_cases hws : isWs c
      · rw [if_pos hws] at h
        by_cases hb : buf = []
        · rw [if_pos hb] at h
          exact ih h
        · rw [if_neg hb] at h
          simp at h
          exact h.2.1
      · rw [if_neg hws] at h
        by_cases hbs : c = '\\'
        · rw [if_pos hbs] at h
          cases rest with
          | nil => exact ih h
          | cons d rest2 => exact ih h
        · rw [if_neg hbs] at h
          by_cases hq : c = '"'
          · rw [if_pos hq] at h
            exact ih h
          · rw [if_neg hq] at h
            exact ih h

theorem nextLoop_some_head {fuel : Nat} {buf pending t b p : List Char}
    (h : nextLoop fuel buf pending = (some t, b, p)) :
    ∀ c, p.head? = some c → isWs c = false := by
  induction fuel generalizing buf pending with
  | zero =>
    cases pending with
    | nil =>
      rw [nextLoop_nil] at h
      by_cases hb : buf = [] <;> simp [hb] at h
      intro c hc
      rw [h.2.2] at hc
      simp at hc
    | cons c rest =>
      rw [nextLoop_zero] at h
      simp at h
  | succ fuel ih =>
    cases pending with
    | nil =>
      rw [nextLoop_nil] at h
      by_cases hb : buf = [] <;> simp [hb] at h
      intro c hc
      rw [h.2.2] at hc
      simp at hc
    | cons c rest =>
      rw [nextLoop_cons] at h
      by_cases hws : isWs c
      · rw [if_pos hws] at h
        by_cases hb : buf = []
        · rw [if_pos hb] at h
          exact ih h
        · rw [if_neg hb] at h
          simp at h
          intro c2 hc2
          rw [← h.2.2] at hc2
          exact head_dropWhile_not isWs rest hc2
      · rw [if_neg hws] at h
        by_cases hbs : c = '\\'
        · rw [if_pos hbs] at h
          cases rest with
          | nil => exact ih h
          | cons d rest2 => exact ih h
        · rw [if_neg hbs] at h
          by_cases hq : c = '"'
          · rw [if_pos hq] at h
            exact ih h
          · rw [if_neg hq] at h
            exact ih h

theorem nextLoop_fuel {fuel : Nat} {buf pending b p : List Char}
    (hf : pending.length < fuel)
    (h : nextLoop fuel buf pending = (none, b, p)) : b = [] ∧ p = [] := by
  induction fuel generalizing buf pending with
  | zero => omega
  | succ fuel ih =>
    cases pending with
    | nil =>
      rw [nextLoop_nil] at h
      by_cases hb : buf = [] <;> simp [hb] at h
      exact h
    | cons c rest =>
      rw [nextLoop_cons] at h
      simp only [List.length_cons] at hf
      by_cases hws : isWs c
      · rw [if_pos hws] at h
        by_cases hb : buf = []
        · rw [if_pos hb] at h
          have : (rest.dropWhile isWs).length < fuel :=
            Nat.lt_of_le_of_lt (dropWhile_length_le isWs rest) (by omega)
          exact ih this h
        · rw [if_neg hb] at h
          simp at h
      · rw [if_neg hws] at h
        by_cases hbs : c = '\\'
        · rw [if_pos hbs] at h
          cases rest with
          | nil =>
            exact ih (by simp; omega) h
          | cons d rest2 =>
            simp only [List.length_cons] at hf
            exact ih (by omega) h
        · rw [if_neg hbs] at h
          by_cases hq : c = '"'
          · rw [if_pos hq] at h
            have : (quoteLoop buf rest).2.length < fuel :=
              Nat.lt_of_le_of_lt (quoteLoop_length buf rest) (by omega)
            exact ih this h
          · rw [if_neg hq] at h
            exact ih (by omega) h

/-- Characters the plain-mode scanner pushes verbatim: not whitespace,
not a backslash, not a quote. -/
def plainChar (c : Char) : Bool :=
  !isWs c && !(c = '\\') && !(c = '"')

theorem nextLoop_plain {u : List Char} (hu : ∀ c ∈ u, plainChar c = true) :
    ∀ fuel buf rest, u.length ≤ fuel →
      nextLoop fuel buf (u ++ rest) = nextLoop (fuel - u.length) (buf ++ u) rest := by
  induction u with
  | nil => intro fuel buf rest _; simp
  | cons c u ih =>
    intro fuel buf rest hf
    simp only [List.length_cons] at hf
    obtain ⟨fuel, rfl⟩ : ∃ f, fuel = f + 1 := ⟨fuel - 1, by omega⟩
    have hc : plainChar c = true := hu c (by simp)
    simp only [plainChar, Bool.and_eq_true, Bool.not_eq_true'] at hc
    obtain ⟨⟨hw, hbs⟩, hq⟩ := hc
    rw [List.cons_append, nextLoop_cons, if_neg (by simp [hw]),
      if_neg (by simpa using hbs), if_neg (by simpa using hq)]
    have := ih (fun d hd => hu d (by simp [hd])) fuel (buf ++ [c]) rest (by omega)
    rw [this]
    simp only [List.append_assoc, List.singleton_append, List.length_cons]
    congr 1
    omega

theorem quoteLoop_append {q : List Char} (hq : ∀ c ∈ q, c ≠ '\\' ∧ c ≠ '"') :
    ∀ buf tail, quoteLoop buf (q ++ '"' :: tail) = (buf ++ q, tail) := by
  induction q with
  | nil =>
    intro buf tail
    rw [List.nil_append, quoteLoop_cons]
    simp +decide
  | cons c q ih =>
    intro buf tail
    have hc := hq c (by simp)
    rw [List.cons_append, quoteLoop_cons, if_neg hc.1, if_neg hc.2]
    rw [ih (fun d hd => hq d (by simp [hd]))]
    simp

/-- Test that a character sequence contains no closing quote: the scan
of a quoted run started before it would reach the end of the input.  A
backslash always skips the next character. -/
def noClose : List Char → Bool
  | [] => true
  | c :: rest =>
    if c = '\\' then
      match rest with
      | [] => true
      | _ :: rest2 => noClose rest2
    else if c = '"' then false
    else noClose rest

/-- Escape-decode a character sequence the way the quoted-run scanner
buffers it when no closing quote occurs: a backslash decodes the next
character through the escape table (and is dropped at end of input),
anything else is kept. -/
def qdecode : List Char → List Char
  | [] => []
  | c :: rest =>
    if c = '\\' then
      match rest with
      | [] => []
      | d :: rest2 => escChar d :: qdecode rest2
    else c :: qdecode rest

theorem qdecode_cons (c : Char) (rest : List Char) :
    qdecode (c :: rest) =
      if c = '\\' then
        match rest with
        | [] => []
        | d :: rest2 => escChar d :: qdecode rest2
      else c :: qdecode rest := by
  rw [qdecode.eq_def]

theorem quoteLoop_noClose {s : List Char} (h : noClose s = true) (buf : List Char) :
    quoteLoop buf s = (buf ++ qdecode s, []) := by
  induction s using noClose.induct generalizing buf with
  | case1 => simp [quoteLoop_nil, qdecode]
  | case2 =>
    rw [quoteLoop_cons, qdecode_cons]
    simp +decide
  | case3 d rest2 ih =>
    rw [noClose.eq_def] at h
    simp +decide at h
    rw [quoteLoop_cons]
    simp only [if_pos rfl]
    rw [ih h]
    simp +decide [qdecode_cons]
  | case4 rest2 hq =>
    rw [noClose.eq_def] at h
    simp +decide at h
  | case5 d rest2 h1 h2 ih =>
    rw [noClose.eq_def] at h
    simp only [if_neg h1, if_neg h2] at h
    rw [quoteLoop_cons, if_neg h1, if_neg h2, ih h]
    simp [qdecode_cons, h1]

theorem wordsNext_eq {w : WState} (h : ¬w.orig = []) :
    wordsNext w =
      ((nextLoop (w.pending.length + 1) w.buffer w.pending).1,
        { orig := w.orig,
          pending := (nextLoop (w.pending.length + 1) w.buffer w.pending).2.2,
          buffer := (nextLoop (w.pending.length + 1) w.buffer w.pending).2.1 }) := by
  simp only [wordsNext, if_neg h]

theorem wordsNext_some_ne_nil {w : WState} {t : List Char} {w' : WState}
    (h : wordsNext w = (some t, w')) : t ≠ [] := by
  by_cases ho : w.orig = []
  · simp [wordsNext, ho] at h
  · rw [wordsNext_eq ho] at h
    have h1 : (nextLoop (w.pending.length + 1) w.buffer w.pending).1 = some t :=
      congrArg Prod.fst h
    exact nextLoop_some_ne_nil (Prod.ext h1 rfl)

theorem drain_ne_nil {fuel : Nat} {w : WState} {t : List Char}
    (h : t ∈ drain fuel w) : t ≠ [] := by
  induction fuel generalizing w with
  | zero => simp [drain] at h
  | succ fuel ih =>
    rw [drain] at h
    match hn : wordsNext w with
    | (none, w') => rw [hn] at h; simp at h
    | (some tok, w') =>
      rw [hn] at h
      simp only [List.mem_cons] at h
      cases h with
      | inl he => rw [he]; exact wordsNext_some_ne_nil hn
      | inr hm => exact ih hm

theorem wordsTokens_ne_nil {s t : List Char} (h : t ∈ wordsTokens s) : t ≠ [] :=
  drain_ne_nil h

/-- Character-level states reachable by the iterator protocol: the
freshly constructed state and everything `next` can step to. -/
inductive WReach : WState → Prop where
  | init : ∀ s, WReach (wordsInit s)
  | step : ∀ w, WReach w → WReach (wordsNext w).2

theorem WReach_orig {w : WState} (h : WReach w) : w.orig = [] → w.pending = [] := by
  induction h with
  | init s => intro he; simp [wordsInit] at he ⊢; exact he
  | step w _ ih =>
    by_cases ho : w.orig = []
    · intro _
      simp only [wordsNext, if_pos ho]
      exact ih ho
    · rw [wordsNext_eq ho]
      intro he
      exact absurd he ho

theorem wordsNext_none_absorb {w w' : WState} (hw : w.orig = [] → w.pending = [])
    (h : wordsNext w = (none, w')) : wordsNext w' = (none, w') ∧ w'.rest = [] := by
  by_cases ho : w.orig = []
  · have hid : wordsNext w = (none, w) := by simp [wordsNext, ho]
    have hw' : w' = w := by
      rw [hid] at h
      exact (congrArg Prod.snd h).symm
    subst hw'
    exact ⟨hid, by simpa [WState.rest] using hw ho⟩
  · rw [wordsNext_eq ho] at h
    have h1 : (nextLoop (w.pending.length + 1) w.buffer w.pending).1 = none :=
      congrArg Prod.fst h
    have hfe := nextLoop_fuel (Nat.lt_succ_self _) (Prod.ext h1 rfl)
    have hw' : w' = { orig := w.orig, pending := [], buffer := [] } := by
      have := congrArg Prod.snd h
      simp only at this
      rw [← this, hfe.1, hfe.2]
    subst hw'
    constructor
    · simp [wordsNext, ho, nextLoop_nil]
    · simp [WState.rest]

theorem trimmed_next_none {t t' : TrimmedWords} (h : t.next = (none, t')) :
    t' = t ∧ t'.next = (none, t') := by
  by_cases hs : t.string = []
  · have hid : t.next = (none, t) := by simp [TrimmedWords.next, hs]
    have ht' : t' = t := by rw [hid] at h; exact (congrArg Prod.snd h).symm
    subst ht'
    exact ⟨rfl, hid⟩
  · exfalso
    by_cases ha : t.string.all (fun c => !is_trim_separator c)
    · simp [TrimmedWords.next, hs, ha] at h
    · simp [TrimmedWords.next, hs, ha] at h

theorem trimmed_next_some_no_sep {t : TrimmedWords} {tok : List Char} {t' : TrimmedWords}
    (h : t.next = (some tok, t')) : ∀ c ∈ tok, is_trim_separator c = false := by
  by_cases hs : t.string = []
  · simp [TrimmedWords.next, hs] at h
  · by_cases ha : t.string.all (fun c => !is_trim_separator c)
    · simp only [TrimmedWords.next, if_neg hs, ha, if_true, Prod.mk.injEq,
        Option.some.injEq] at h
      intro c hc
      rw [← h.1] at hc
      have := List.all_eq_true.mp ha c hc
      simpa using this
    · simp only [TrimmedWords.next, if_neg hs, if_neg ha, Prod.mk.injEq,
        Option.some.injEq] at h
      intro c hc
      rw [← h.1] at hc
      have := List.mem_takeWhile_imp hc
      simpa using this

theorem trimmed_next_some_trimmed {t : TrimmedWords} {tok : List Char} {t' : TrimmedWords}
    (h : t.next = (some tok, t')) :
    ∀ c, t'.string.head? = some c → is_trim_separator c = false := by
  by_cases hs : t.string = []
  · simp [TrimmedWords.next, hs] at h
  · by_cases ha : t.string.all (fun c => !is_trim_separator c)
    · simp only [TrimmedWords.next, if_neg hs, ha, if_true, Prod.mk.injEq,
        Option.some.injEq] at h
      intro c hc
      rw [← h.2] at hc
      simp at hc
    · simp only [TrimmedWords.next, if_neg hs, if_neg ha, Prod.mk.injEq,
        Option.some.injEq] at h
      intro c hc
      rw [← h.2] at hc
      exact head_dropWhile_not _ _ hc

theorem trimmed_new_trimmed (s : List Char) :
    ∀ c, ((TrimmedWords.new s).string).head? = some c → is_trim_separator c = false := by
  intro c hc
  simp only [TrimmedWords.new] at hc
  exact head_dropWhile_not _ _ hc

theorem trimmedDrain_no_sep {fuel : Nat} {t : TrimmedWords} {tok : List Char}
    (h : tok ∈ trimmedDrain fuel t) : ∀ c ∈ tok, is_trim_separator c = false := by
  induction fuel generalizing t with
  | zero => simp [trimmedDrain] at h
  | succ fuel ih =>
    rw [trimmedDrain] at h
    match hn : t.next with
    | (none, t') => rw [hn] at h; simp at h
    | (some tok2, t') =>
      rw [hn] at h
      simp only [List.mem_cons] at h
      cases h with
      | inl he => rw [he]; exact trimmed_next_some_no_sep hn
      | inr hm => exact ih hm

theorem drain_succ (fuel : Nat) (w : WState) :
    drain (fuel + 1) w =
      match wordsNext w with
      | (none, _) => []
      | (some t, w') => t :: drain fuel w' := by
  rw [drain.eq_def]

theorem drain_none {w : WState} (h : (wordsNext w).1 = none) (fuel : Nat) :
    drain fuel w = [] := by
  cases fuel with
  | zero => rw [drain.eq_def]
  | succ fuel =>
    rw [drain_succ]
    match hw : wordsNext w with
    | (none, w2) => rfl
    | (some t, w2) => rw [hw] at h; simp at h

theorem wordsTokens_concat_quoted {u q : List Char} (hu0 : u ≠ [])
    (hu : ∀ c ∈ u, plainChar c = true) (hq : ∀ c ∈ q, c ≠ '\\' ∧ c ≠ '"') :
    wordsTokens (u ++ ('"' :: (q ++ ['"']))) = [u ++ q] := by
  have hslen : (u ++ ('"' :: (q ++ ['"']))).length = u.length + q.length + 2 := by
    simp
    omega
  have h1 : nextLoop ((u ++ ('"' :: (q ++ ['"']))).length + 1) [] (u ++ ('"' :: (q ++ ['"']))) =
      (some (u ++ q), [], []) := by
    rw [nextLoop_plain hu ((u ++ ('"' :: (q ++ ['"']))).length + 1) [] ('"' :: (q ++ ['"']))
      (by rw [hslen]; omega)]
    have he : (u ++ ('"' :: (q ++ ['"']))).length + 1 - u.length = (q.length + 2) + 1 := by
      rw [hslen]; omega
    rw [he, List.nil_append, nextLoop_cons, if_neg (by decide), if_neg (by decide),
      if_pos rfl, quoteLoop_append hq u [], nextLoop_nil,
      if_neg (by simp [hu0])]
  have horig : (u ++ ('"' :: (q ++ ['"']))) ≠ [] := by simp
  have h2 : wordsNext (wordsInit (u ++ ('"' :: (q ++ ['"'])))) =
      (some (u ++ q), WState.mk (u ++ ('"' :: (q ++ ['"']))) [] []) := by
    rw [wordsNext_eq (by simp only [wordsInit]; exact horig)]
    simp only [wordsInit]
    rw [h1]
  have h3 : (wordsNext (WState.mk (u ++ ('"' :: (q ++ ['"']))) [] [])).1 = none := by
    simp [wordsNext, horig, nextLoop_nil]
  obtain ⟨m, hm⟩ : ∃ m, (u ++ ('"' :: (q ++ ['"']))).length = m + 1 :=
    ⟨u.length + q.length + 1, by omega⟩
  unfold wordsTokens
  rw [hm, drain_succ, h2]
  show (u ++ q) :: drain (m + 1) (WState.mk (u ++ ('"' :: (q ++ ['"']))) [] []) = [u ++ q]
  rw [drain_none h3]

theorem escape_exhausted {w : Words} (hb : w.b0 = none) :
    (w.escape).buffer = w.buffer := by
  have h1 : w.take = (none, (w.take).2) := Prod.ext (by rw [take_fst, hb]) rfl
  unfold Words.escape
  rw [h1]
  match ht : dropBytes w.string w.off with
  | [] => rw [Words.take_nil ht]
  | c :: t => rw [Words.take_cons ht]

/-- C1: for every input the decoding tokenizer never yields an
empty-string token — leading, trailing or repeated whitespace inserts
no empty tokens — and the input `"   foo bar   baz   "` yields exactly
`["foo", "bar", "baz"]`. -/
theorem claim_C1 :
    (∀ (s t : List Char), t ∈ wordsTokens s → t ≠ []) ∧
    wordsTokens "   foo bar   baz   ".toList = ["foo".toList, "bar".toList, "baz".toList] :=
  ⟨fun _ _ h => wordsTokens_ne_nil h, by decide⟩

theorem claim_C1_witness : "foo".toList ≠ [] :=
  claim_C1.1 "foo bar".toList "foo".toList (by decide)

/-- C2: an unquoted segment immediately followed by a double-quoted
run with no intervening whitespace is yielded as one concatenated
token, not two: for any non-empty plain segment `u` and quote-free,
backslash-free body `q`, the input `u"q"` tokenizes to the single
token `u ++ q`; in particular `"   foo\"baz  biz\" "` yields exactly
`["foobaz  biz"]`. -/
theorem claim_C2 :
    (∀ u q : List Char, u ≠ [] → (∀ c ∈ u, plainChar c = true) →
      (∀ c ∈ q, c ≠ '\\' ∧ c ≠ '"') →
      wordsTokens (u ++ ('"' :: (q ++ ['"']))) = [u ++ q]) ∧
    wordsTokens "   foo\"baz  biz\" ".toList = ["foobaz  biz".toList] :=
  ⟨fun _ _ h1 h2 h3 => wordsTokens_concat_quoted h1 h2 h3, by decide⟩

theorem claim_C2_witness :
    wordsTokens ("foo".toList ++ ('"' :: ("baz  biz".toList ++ ['"']))) =
      ["foo".toList ++ "baz  biz".toList] :=
  claim_C2.1 "foo".toList "baz  biz".toList (by decide) (by decide) (by decide)

/-- C3: the tokenizer has no failing operation: an escape at end of
input appends nothing (`escape` on an exhausted lookahead leaves the
buffer unchanged; a trailing backslash behaves exactly like end of
input, both in plain mode and inside a quoted run), and a quoted run
that never sees a closing quote is implicitly closed at end of input,
keeping everything buffered so far; end-to-end, `"foo\\"` yields
`["foo"]` and `"x \"y z"` yields `["x", "y z"]`. -/
theorem claim_C3 :
    (∀ w : Words, w.b0 = none → (w.escape).buffer = w.buffer) ∧
    (∀ (fuel : Nat) (buf : List Char),
      nextLoop (fuel + 1) buf ['\\'] = nextLoop (fuel + 1) buf []) ∧
    (∀ buf : List Char, quoteLoop buf ['\\'] = (buf, [])) ∧
    (∀ s : List Char, noClose s = true →
      ∀ buf, quoteLoop buf s = (buf ++ qdecode s, [])) ∧
    wordsTokens "foo\\".toList = ["foo".toList] ∧
    wordsTokens "x \"y z".toList = ["x".toList, "y z".toList] := by
  refine ⟨fun w hb => escape_exhausted hb, ?_, ?_, fun s h buf => quoteLoop_noClose h buf,
    by decide, by decide⟩
  · intro fuel buf
    rw [nextLoop_cons, if_neg (by decide), if_pos rfl, nextLoop_nil, nextLoop_nil]
  · intro buf
    rw [quoteLoop_cons, if_pos rfl]

theorem claim_C3_witness :
    ((Words.new []).escape).buffer = (Words.new []).buffer ∧
    quoteLoop "x".toList "abc".toList = ("x".toList ++ qdecode "abc".toList, []) :=
  ⟨claim_C3.1 (Words.new []) (by decide),
   claim_C3.2.2.2.1 "abc".toList (by decide) "x".toList⟩

/-- C4: a backslash always consumes exactly one following character
and appends its decoding through the fixed table t→TAB, r→CR, n→LF,
anything else→itself, both in plain mode and inside a quoted run; it
never changes mode, so `"   foo\\\"baz  biz"` yields
`["foo\"baz", "biz"]` with a literal quote inside the first token. -/
theorem claim_C4 :
    (∀ (fuel : Nat) (buf : List Char) (d : Char) (rest2 : List Char),
      nextLoop (fuel + 1) buf ('\\' :: d :: rest2) = nextLoop fuel (buf ++ [escChar d]) rest2) ∧
    (∀ (buf : List Char) (d : Char) (rest2 : List Char),
      quoteLoop buf ('\\' :: d :: rest2) = quoteLoop (buf ++ [escChar d]) rest2) ∧
    escChar 't' = '\t' ∧ escChar 'r' = '\r' ∧ escChar 'n' = '\n' ∧
    (∀ c : Char, c ≠ 't' → c ≠ 'r' → c ≠ 'n' → escChar c = c) ∧
    wordsTokens "   foo\\\"baz  biz".toList = ["foo\"baz".toList, "biz".toList] := by
  refine ⟨?_, ?_, by decide, by decide, by decide, ?_, by decide⟩
  · intro fuel buf d rest2
    rw [nextLoop_cons, if_neg (by decide), if_pos rfl]
  · intro buf d rest2
    rw [quoteLoop_cons, if_pos rfl]
  · intro c h1 h2 h3
    simp [escChar, h1, h2, h3]

theorem claim_C4_witness : escChar 'x' = 'x' :=
  claim_C4.2.2.2.2.2.1 'x' (by decide) (by decide) (by decide)

/-- C5: on every reachable state, `rest` returns the suffix of the
backing text starting at the lookahead character (lookahead included:
it is the lookahead character followed by the suffix at the cursor);
immediately after a `next` call that returned a token the remainder
never starts inside a whitespace run; in particular for
`"   foo\\\"baz  biz \"is good\""` the first token is `"foo\"baz"` and
the remainder right after is `"biz \"is good\""`. -/
theorem claim_C5 :
    (∀ w : Words, WordsReach w → ∀ (n : Nat) (c : Char), w.b0 = some (n, c) →
      w.rest = c :: dropBytes w.string w.off) ∧
    (∀ (w w' : WState) (t : List Char), wordsNext w = (some t, w') →
      ∀ c : Char, (w'.rest).head? = some c → isWs c = false) ∧
    ((wordsNext (wordsInit "   foo\\\"baz  biz \"is good\"".toList)).1 =
        some "foo\"baz".toList ∧
      ((wordsNext (wordsInit "   foo\\\"baz  biz \"is good\"".toList)).2).rest =
        "biz \"is good\"".toList) := by
  refine ⟨fun w hr n c hb => WordsInv_rest (WordsReach_inv hr) hb, ?_, by decide, by decide⟩
  intro w w' t h c hc
  by_cases ho : w.orig = []
  · simp [wordsNext, ho] at h
  · rw [wordsNext_eq ho] at h
    rw [Prod.mk.injEq] at h
    obtain ⟨h1, h2⟩ := h
    rw [← h2] at hc
    simp only [WState.rest] at hc
    exact nextLoop_some_head (Prod.ext h1 rfl) c hc

theorem claim_C5_witness :
    (((Words.new ('a' :: 'b' :: [])).take).2).rest =
      'b' :: dropBytes (((Words.new ('a' :: 'b' :: [])).take).2).string
        (((Words.new ('a' :: 'b' :: [])).take).2).off ∧
    isWs 'b' = false :=
  ⟨claim_C5.1 _ (WordsReach.take _ (WordsReach.new ('a' :: 'b' :: []))) 1 'b' (by decide),
   claim_C5.2.1 (wordsInit ('a' :: ' ' :: 'b' :: []))
     ((wordsNext (wordsInit ('a' :: ' ' :: 'b' :: []))).2) ('a' :: []) (by decide) 'b' (by decide)⟩

/-- C6: on every reachable state of the byte-offset machine both the
cursor and the lookahead byte offset are character boundaries of the
backing text, and `rest` is a whole-character suffix of it, so no
slicing ever cuts a multi-byte encoded character; in particular
`"👌👌 foo"` tokenizes to `["👌👌", "foo"]`. -/
theorem claim_C6 :
    (∀ w : Words, WordsReach w →
      isBoundary w.string w.off = true ∧
      (∀ (n : Nat) (c : Char), w.b0 = some (n, c) → isBoundary w.string n = true) ∧
      (∃ pre, w.string = pre ++ w.rest)) ∧
    wordsTokens "👌👌 foo".toList = ["👌👌".toList, "foo".toList] :=
  ⟨fun w hr =>
    ⟨WordsInv_off_boundary (WordsReach_inv hr),
     fun _ _ hb => WordsInv_b0_boundary (WordsReach_inv hr) hb,
     WordsInv_rest_suffix (WordsReach_inv hr)⟩,
   by decide⟩

theorem claim_C6_witness :
    isBoundary (((Words.new "👌👌 foo".toList).take).2).string
      (((Words.new "👌👌 foo".toList).take).2).off = true :=
  (claim_C6.1 _ (WordsReach.take _ (WordsReach.new "👌👌 foo".toList))).1

/-- C7: no token of the simple splitter ever contains a separator
character (whitespace or ASCII punctuation), and the leading separator
run is trimmed at construction and after every emitted token. -/
theorem claim_C7 :
    (∀ (t : TrimmedWords) (tok : List Char) (t' : TrimmedWords),
      t.next = (some tok, t') → ∀ c ∈ tok, is_trim_separator c = false) ∧
    (∀ (s tok : List Char), tok ∈ trimmedTokens s → ∀ c ∈ tok, is_trim_separator c = false) ∧
    (∀ (s : List Char) (c : Char), ((TrimmedWords.new s).string).head? = some c →
      is_trim_separator c = false) ∧
    (∀ (t : TrimmedWords) (tok : List Char) (t' : TrimmedWords), t.next = (some tok, t') →
      ∀ c : Char, (t'.string).head? = some c → is_trim_separator c = false) :=
  ⟨fun _ _ _ h => trimmed_next_some_no_sep h,
   fun _ _ h => trimmedDrain_no_sep h,
   fun s => trimmed_new_trimmed s,
   fun _ _ _ h => trimmed_next_some_trimmed h⟩

theorem claim_C7_witness : is_trim_separator 'h' = false :=
  claim_C7.2.1 "hello, do you feel alive?".toList "hello".toList (by decide) 'h' (by decide)

/-- C8: tokenization is a deterministic function of the input text
alone: tokenizers over storages that dereference to the same text
yield the same token sequence, and two fresh drains of the same input
agree. -/
theorem claim_C8 :
    (∀ st1 st2 : WordsStorage, st1.deref = st2.deref →
      wordsTokensOf st1 = wordsTokensOf st2) ∧
    (∀ s : List Char, drain (s.length + 1) (wordsInit s) = drain (s.length + 1) (wordsInit s)) :=
  ⟨fun _ _ h => by simp only [wordsTokensOf, h], fun _ => rfl⟩

theorem claim_C8_witness :
    wordsTokensOf (WordsStorage.shared "a b".toList) =
      wordsTokensOf (WordsStorage.static "a b".toList) :=
  claim_C8.1 _ _ rfl

/-- C9: every token yielded by the decoding tokenizer is non-empty;
an empty quoted run produces no token at all, with or without
surrounding whitespace. -/
theorem claim_C9 :
    (∀ (s t : List Char), t ∈ wordsTokens s → t ≠ []) ∧
    wordsTokens "\"\"".toList = [] ∧
    wordsTokens "  \"\"  ".toList = [] :=
  ⟨fun _ _ h => wordsTokens_ne_nil h, by decide, by decide⟩

theorem claim_C9_witness : ('a' :: []) ≠ ([] : List Char) :=
  claim_C9.1 ('a' :: []) ('a' :: []) (by decide)

/-- C10: both iterators are fused: from any reachable state, once
`next` returns `None` every later `next` returns `None` again and, for
the decoding tokenizer, `rest` is the empty string; the simple
splitter likewise stays exhausted. -/
theorem claim_C10 :
    (∀ (w w' : WState), WReach w → wordsNext w = (none, w') →
      wordsNext w' = (none, w') ∧ w'.rest = []) ∧
    (∀ (t t' : TrimmedWords), t.next = (none, t') → t'.next = (none, t')) :=
  ⟨fun _ _ hr h => wordsNext_none_absorb (WReach_orig hr) h,
   fun _ _ h => (trimmed_next_none h).2⟩

theorem claim_C10_witness :
    (wordsNext ((wordsNext (wordsInit ('a' :: []))).2) =
        (none, (wordsNext (wordsInit ('a' :: []))).2) ∧
      ((wordsNext (wordsInit ('a' :: []))).2).rest = []) ∧
    (TrimmedWords.mk []).next = (none, TrimmedWords.mk []) :=
  ⟨claim_C10.1 _ _ (WReach.step _ (WReach.init ('a' :: []))) (by decide),
   claim_C10.2 (TrimmedWords.mk []) (TrimmedWords.mk []) (by decide)⟩
